import Mathlib

/-!
Verification of the permission-set design-report generator
(`scripts/generate-design.js`, `scripts/extract-permissions.js`).

Modelling conventions used throughout this development:

* A markdown document is modelled as its list of lines (the scripts build
  documents by joining lines with a newline and re-split on newlines when
  parsing); a cell value containing a newline is outside the model and is
  excluded by explicit hypotheses where it matters.
* `fs.readFile` / `JSON.parse` / the `sf` CLI call are modelled as explicit
  fallible oracles (`Except JsError`); a thrown JavaScript error is the
  `.error` case, and `error.code === "ENOENT"` is modelled by the `code`
  field of `JsError`.
* JavaScript string helpers (`split`, `trim`, `includes`, one-occurrence
  `replace`) are re-implemented on `List Char` with the same semantics.
-/

namespace GenDesign

/-! ## JavaScript string primitives -/

/-- JS `s.split(sep)` for a one-character separator: splits at every
occurrence; `"".split(sep)` is `[""]`, separators at the ends produce empty
fragments. -/
def splitChar (sep : Char) : List Char → List (List Char)
  | [] => [[]]
  | c :: cs =>
    if c = sep then [] :: splitChar sep cs
    else
      match splitChar sep cs with
      | [] => [[c]]
      | g :: gs => (c :: g) :: gs

/-- Whitespace recognised by JS `String.prototype.trim` (the characters that
can occur in this development). -/
def isWs (c : Char) : Bool := c = ' ' || c = '\t' || c = '\n' || c = '\r'

/-- JS `s.trim()` on a character list. -/
def trimChars (cs : List Char) : List Char :=
  ((cs.dropWhile isWs).reverse.dropWhile isWs).reverse

/-- JS `s.trim()`. -/
def jsTrim (s : String) : String := ⟨trimChars s.toList⟩

/-- JS `hay.includes(needle)` on character lists. -/
def listContains (pat : List Char) : List Char → Bool
  | [] => pat.isEmpty
  | c :: cs => pat.isPrefixOf (c :: cs) || listContains pat cs

/-- JS `s.startsWith(needle)`. -/
def jsStartsWith (needle s : String) : Bool :=
  needle.toList.isPrefixOf s.toList

/-- JS `hay.includes(needle)`. -/
def jsIncludes (needle hay : String) : Bool := listContains needle.toList hay.toList

/-- JS `s.replace(pat, "")` with a *string* pattern: removes only the first
occurrence of `pat`, leaves `s` unchanged when `pat` does not occur. -/
def stripFirst (pat : List Char) : List Char → List Char
  | [] => []
  | c :: cs =>
    if pat.isPrefixOf (c :: cs) then (c :: cs).drop pat.length
    else c :: stripFirst pat cs

/-- JS `s.replace(pat, "")` (first occurrence only). -/
def jsReplaceFirst (s pat : String) : String := ⟨stripFirst pat.toList s.toList⟩

theorem toList_append (a b : String) : (a ++ b).toList = a.toList ++ b.toList := by
  cases a; cases b; rfl

theorem toList_mk (cs : List Char) : (String.mk cs).toList = cs := rfl

/-! ## Data model

Parsed metadata records, mirroring the fields the scripts read from the
`fast-xml-parser` output of `*.permissionset-meta.xml` / `*.profile-meta.xml`
documents and of the `.describe_data/*_describe.json` snapshots. -/

/-- One `objectPermissions` entry of a permission-set/profile document. -/
structure ObjectPermissionEntry where
  object : String
  allowCreate : Bool
  allowRead : Bool
  allowEdit : Bool
  allowDelete : Bool
  viewAllRecords : Bool
  modifyAllRecords : Bool
  viewAllFields : Bool
deriving DecidableEq, Repr

/-- One `fieldPermissions` entry of a permission-set/profile document. -/
structure FieldPermissionEntry where
  field : String
  readable : Bool
  editable : Bool
deriving DecidableEq, Repr

/-- One field descriptor of a describe snapshot (`fields` array element). -/
structure FieldDescribe where
  name : String
  label : String
deriving DecidableEq, Repr

/-- A describe snapshot, as read by `getObjectDescribe`: the `fields` member
may be absent (`getFieldLabel` checks `!objectDescribe.fields`). -/
structure ObjectDescribe where
  label : String
  fields : Option (List FieldDescribe)
deriving DecidableEq, Repr

/-- The parts of a parsed `PermissionSet` document the scripts read.  A
missing XML element is `none`. -/
structure PermissionSetMeta where
  label : Option String
  objectPermissions : Option (List ObjectPermissionEntry)
  fieldPermissions : Option (List FieldPermissionEntry)
deriving Repr

/-- The parts of a parsed `Profile` document the scripts read. -/
structure ProfileMeta where
  label : Option String
  objectPermissions : Option (List ObjectPermissionEntry)
  fieldPermissions : Option (List FieldPermissionEntry)
deriving Repr

/-- A thrown JavaScript error: `code` models `error.code` (absent on most
errors, `"ENOENT"` on a missing file), `message` the error message. -/
structure JsError where
  code : Option String
  message : String
deriving DecidableEq, Repr

/-- JS `x || y` on an optional label: falls back when the label is absent
*or* the empty string (both are falsy). -/
def labelOr (label : Option String) (fallback : String) : String :=
  match label with
  | none => fallback
  | some l => if l = "" then fallback else l

/-! ## Permission-code derivation

`generate-design.js` duplicates this logic verbatim in three places
(`generateObjectPermissionsTable` lines 169-192 and the two summary loops of
`generateAllSummary`, lines 513-531 and 534-553); it is embedded once. -/

/-- The flag-to-letter concatenation of lines 176-184: starting from `""`,
append one letter/digraph per true flag in source order, then fall back to
`"-"` if nothing was appended. -/
def objPermCode (p : ObjectPermissionEntry) : String :=
  let s0 := ""
  let s1 := if p.allowCreate then s0 ++ "C" else s0
  let s2 := if p.allowRead then s1 ++ "R" else s1
  let s3 := if p.allowEdit then s2 ++ "U" else s2
  let s4 := if p.allowDelete then s3 ++ "D" else s3
  let s5 := if p.viewAllRecords then s4 ++ "Va" else s4
  let s6 := if p.modifyAllRecords then s5 ++ "Ua" else s5
  let s7 := if p.viewAllFields then s6 ++ "Fa" else s6
  if s7 = "" then "-" else s7

/-- `metadata.<root>.objectPermissions?.find((p) => p.object === objName)`:
an absent `objectPermissions` element short-circuits to `undefined`. -/
def findObjectPermission (perms : Option (List ObjectPermissionEntry))
    (objName : String) : Option ObjectPermissionEntry :=
  match perms with
  | none => none
  | some l => l.find? (fun p => p.object == objName)

/-- Lines 173-185: the permission cell for one object — `"-"` when no entry
matches, otherwise the flag concatenation. -/
def objectPermissionCode (perms : Option (List ObjectPermissionEntry))
    (objName : String) : String :=
  match findObjectPermission perms objName with
  | none => "-"
  | some p => objPermCode p

/-- `metadata.<root>.fieldPermissions?.find((p) => p.field === fieldFullName)`. -/
def findFieldPermission (perms : Option (List FieldPermissionEntry))
    (fieldFullName : String) : Option FieldPermissionEntry :=
  match perms with
  | none => none
  | some l => l.find? (fun p => p.field == fieldFullName)

/-- Lines 239-246: the permission cell for one field — `"RU"`, `"R"` or `"-"`. -/
def fieldPermCodeOfEntry (p : FieldPermissionEntry) : String :=
  if p.readable && p.editable then "RU"
  else if p.readable then "R"
  else "-"

/-- The field permission cell including the no-entry case. -/
def fieldPermissionCode (perms : Option (List FieldPermissionEntry))
    (fieldFullName : String) : String :=
  match findFieldPermission perms fieldFullName with
  | none => "-"
  | some p => fieldPermCodeOfEntry p

/-- Specification-side restatement of the object-code derivation, used to
compare the source's mutable-string accumulation against the spec's words:
one token per true flag, concatenated in the fixed order C R U D Va Ua Fa,
with `"-"` when no flag is true. -/
def specObjCodeTokens (p : ObjectPermissionEntry) : List String :=
  (if p.allowCreate then ["C"] else []) ++
  (if p.allowRead then ["R"] else []) ++
  (if p.allowEdit then ["U"] else []) ++
  (if p.allowDelete then ["D"] else []) ++
  (if p.viewAllRecords then ["Va"] else []) ++
  (if p.modifyAllRecords then ["Ua"] else []) ++
  (if p.viewAllFields then ["Fa"] else [])

/-- Specification-side object code: `"-"` when no flag is true. -/
def specObjCode (p : ObjectPermissionEntry) : String :=
  if specObjCodeTokens p = [] then "-" else String.join (specObjCodeTokens p)

/-- C1 — for every object-permission entry the derived code is the fixed-order
concatenation of one token per true flag; exactly Create+Read derives "CR";
no true flag derives "-"; no entry for the object derives "-". -/
theorem objectPermissionCode_spec :
    (∀ p : ObjectPermissionEntry, objPermCode p = specObjCode p) ∧
    (∀ p : ObjectPermissionEntry,
      p.allowCreate = true → p.allowRead = true → p.allowEdit = false →
      p.allowDelete = false → p.viewAllRecords = false →
      p.modifyAllRecords = false → p.viewAllFields = false →
      objPermCode p = "CR") ∧
    (∀ p : ObjectPermissionEntry,
      p.allowCreate = false → p.allowRead = false → p.allowEdit = false →
      p.allowDelete = false → p.viewAllRecords = false →
      p.modifyAllRecords = false → p.viewAllFields = false →
      objPermCode p = "-") ∧
    (∀ (perms : Option (List ObjectPermissionEntry)) (objName : String),
      findObjectPermission perms objName = none →
      objectPermissionCode perms objName = "-") := by
  refine ⟨?_, ?_, ?_, ?_⟩
  · rintro ⟨o, c, r, u, d, va, ua, fa⟩
    cases c <;> cases r <;> cases u <;> cases d <;> cases va <;> cases ua <;>
      cases fa <;> rfl
  · rintro ⟨o, c, r, u, d, va, ua, fa⟩ hc hr hu hd hva hua hfa
    simp only at hc hr hu hd hva hua hfa
    subst hc; subst hr; subst hu; subst hd; subst hva; subst hua; subst hfa
    rfl
  · rintro ⟨o, c, r, u, d, va, ua, fa⟩ hc hr hu hd hva hua hfa
    simp only at hc hr hu hd hva hua hfa
    subst hc; subst hr; subst hu; subst hd; subst hva; subst hua; subst hfa
    rfl
  · intro perms objName h
    simp [objectPermissionCode, h]

/-- Witness for C1 at concrete entries. -/
theorem objectPermissionCode_spec_witness :
    objPermCode ⟨"Account", true, true, false, false, false, false, false⟩ = "CR" ∧
    objPermCode ⟨"Account", false, false, false, false, false, false, false⟩ = "-" ∧
    objectPermissionCode (some []) "Account" = "-" := by
  refine ⟨?_, ?_, ?_⟩
  · exact objectPermissionCode_spec.2.1 _ rfl rfl rfl rfl rfl rfl rfl
  · exact objectPermissionCode_spec.2.2.1 _ rfl rfl rfl rfl rfl rfl rfl
  · exact objectPermissionCode_spec.2.2.2 (some []) "Account" rfl

/-- C2 — field permission cells: "RU" when readable and editable, "R" when
only readable, "-" otherwise; in particular editable-without-readable and
missing entries both derive "-". -/
theorem fieldPermissionCode_spec :
    (∀ p : FieldPermissionEntry,
      p.readable = true → p.editable = true → fieldPermCodeOfEntry p = "RU") ∧
    (∀ p : FieldPermissionEntry,
      p.readable = true → p.editable = false → fieldPermCodeOfEntry p = "R") ∧
    (∀ p : FieldPermissionEntry,
      p.readable = false → fieldPermCodeOfEntry p = "-") ∧
    (∀ p : FieldPermissionEntry,
      p.editable = true → p.readable = false → fieldPermCodeOfEntry p = "-") ∧
    (∀ (perms : Option (List FieldPermissionEntry)) (fieldFullName : String),
      findFieldPermission perms fieldFullName = none →
      fieldPermissionCode perms fieldFullName = "-") := by
  refine ⟨?_, ?_, ?_, ?_, ?_⟩
  · rintro ⟨f, r, e⟩ hr he
    simp only at hr he; subst hr; subst he; rfl
  · rintro ⟨f, r, e⟩ hr he
    simp only at hr he; subst hr; subst he; rfl
  · rintro ⟨f, r, e⟩ hr
    simp only at hr; subst hr; cases e <;> rfl
  · rintro ⟨f, r, e⟩ he hr
    simp only at hr he; subst hr; subst he; rfl
  · intro perms fieldFullName h
    simp [fieldPermissionCode, h]

/-- Witness for C2 at concrete entries. -/
theorem fieldPermissionCode_spec_witness :
    fieldPermCodeOfEntry ⟨"Account.X__c", true, true⟩ = "RU" ∧
    fieldPermCodeOfEntry ⟨"Account.X__c", true, false⟩ = "R" ∧
    fieldPermCodeOfEntry ⟨"Account.X__c", false, true⟩ = "-" ∧
    fieldPermissionCode none "Account.X__c" = "-" := by
  refine ⟨?_, ?_, ?_, ?_⟩
  · exact fieldPermissionCode_spec.1 _ rfl rfl
  · exact fieldPermissionCode_spec.2.1 _ rfl rfl
  · exact fieldPermissionCode_spec.2.2.2.1 _ rfl rfl
  · exact fieldPermissionCode_spec.2.2.2.2 none _ rfl

/-! ## Object Describe Cache (`getObjectDescribe`, `getFieldLabel`) -/

/-- Lines 133-144: `fs.readFile` of `.describe_data/{name}_describe.json`
followed by `JSON.parse`, modelled as one fallible oracle; the surrounding
try/catch turns *every* failure into `null`. -/
def getObjectDescribe (readDescribe : String → Except JsError ObjectDescribe)
    (objectName : String) : Option ObjectDescribe :=
  match readDescribe objectName with
  | .ok d => some d
  | .error _ => none

/-- Lines 198-208: field label lookup, exact-match on `f.name`, falling back
to the given field name when the describe, its `fields` member, or a
matching descriptor is missing. -/
def getFieldLabel (objectDescribe : Option ObjectDescribe) (fieldName : String) :
    String :=
  match objectDescribe with
  | none => fieldName
  | some od =>
    match od.fields with
    | none => fieldName
    | some fs =>
      match fs.find? (fun f => f.name == fieldName) with
      | none => fieldName
      | some f => f.label

/-- C7 — the describe lookup turns every read/parse failure into the
"not available" result instead of raising; the field sub-lookup matches
descriptors by exact string equality on the field API name and returns the
given field name itself when nothing matches. -/
theorem describeCache_spec :
    (∀ (readDescribe : String → Except JsError ObjectDescribe)
       (objectName : String) (e : JsError),
      readDescribe objectName = .error e →
      getObjectDescribe readDescribe objectName = none) ∧
    (∀ (fs : List FieldDescribe) (fieldName : String) (f : FieldDescribe),
      fs.find? (fun g => g.name == fieldName) = some f → f.name = fieldName) ∧
    (∀ (od : ObjectDescribe) (fs : List FieldDescribe) (fieldName : String),
      od.fields = some fs → (∀ f ∈ fs, f.name ≠ fieldName) →
      getFieldLabel (some od) fieldName = fieldName) ∧
    (∀ fieldName : String, getFieldLabel none fieldName = fieldName) := by
  refine ⟨?_, ?_, ?_, ?_⟩
  · intro readDescribe objectName e h
    simp [getObjectDescribe, h]
  · intro fs fieldName f h
    have := List.find?_some h
    exact eq_of_beq this
  · intro od fs fieldName hfs hnone
    have : fs.find? (fun f => f.name == fieldName) = none := by
      rw [List.find?_eq_none]
      intro f hf
      simp only [Bool.not_eq_true, beq_eq_false_iff_ne]
      exact hnone f hf
    simp [getFieldLabel, hfs, this]
  · intro fieldName
    rfl

/-- Witness for C7 at a concrete failing read and a concrete miss. -/
theorem describeCache_spec_witness :
    getObjectDescribe (fun _ => .error ⟨none, "bad json"⟩) "Account" = none ∧
    getFieldLabel (some ⟨"取引先", some [⟨"Name", "名前"⟩]⟩) "Other__c" = "Other__c" ∧
    getFieldLabel none "X__c" = "X__c" := by
  refine ⟨?_, ?_, ?_⟩
  · exact describeCache_spec.1 _ "Account" ⟨none, "bad json"⟩ rfl
  · exact describeCache_spec.2.2.1 ⟨"取引先", some [⟨"Name", "名前"⟩]⟩
      [⟨"Name", "名前"⟩] "Other__c" rfl (by decide)
  · exact describeCache_spec.2.2.2 "X__c"

/-! ## Row display names (C6) -/

/-- Lines 187-191 (and 506-511, 605-611): the row label is the describe
snapshot's label when one exists, otherwise
`objName.replace("__c", "")` — JS `replace` with a string pattern removes
only the *first* occurrence. -/
def displayNameOf (d : Option ObjectDescribe) (objName : String) : String :=
  match d with
  | some od => od.label
  | none => jsReplaceFirst objName "__c"

/-- Stated straight from the claim's words, for comparison: strip a
*trailing* `__c` suffix. -/
def specStripTrailing (name : String) : String :=
  if ['_', '_', 'c'].isSuffixOf name.toList then
    ⟨name.toList.take (name.toList.length - 3)⟩
  else name

theorem isPrefixOf_pat_swap (l : List Char) (x : Char) :
    (['_', '_', 'c'].isPrefixOf (x :: (l ++ ['_', '_', 'c'])))
      = (['_', '_', 'c'].isPrefixOf (x :: (l ++ ['_', '_']))) := by
  have aux3 : ∀ l2 : List Char,
      (['c'].isPrefixOf (l2 ++ ['_', '_', 'c']))
        = (['c'].isPrefixOf (l2 ++ ['_', '_'])) := by
    intro l2
    cases l2 with
    | nil => decide
    | cons z l3 => simp [List.isPrefixOf]
  have aux2 : ∀ l1 : List Char,
      (['_', 'c'].isPrefixOf (l1 ++ ['_', '_', 'c']))
        = (['_', 'c'].isPrefixOf (l1 ++ ['_', '_'])) := by
    intro l1
    cases l1 with
    | nil => decide
    | cons y l2 => simp [List.isPrefixOf, aux3 l2]
  simp [List.isPrefixOf, aux2 l]

theorem stripFirst_trailing (bs : List Char)
    (h : listContains ['_', '_', 'c'] (bs ++ ['_', '_']) = false) :
    stripFirst ['_', '_', 'c'] (bs ++ ['_', '_', 'c']) = bs := by
  induction bs with
  | nil => decide
  | cons b bs ih =>
    simp only [listContains, Bool.or_eq_false_iff, List.cons_append] at h
    have hpref : (['_', '_', 'c'].isPrefixOf (b :: (bs ++ ['_', '_', 'c']))) = false := by
      rw [isPrefixOf_pat_swap]
      exact h.1
    simp only [List.append_eq, List.cons_append, stripFirst, hpref,
      Bool.false_eq_true, if_false]
    rw [ih h.2]

/-- C6 (counterexample to the claim as stated): for the identifier
`"A__cB__c"` with no describe snapshot, the code removes the *first*
occurrence of `"__c"` and shows `"AB__c"`, not the trailing-suffix-stripped
`"A__cB"`. -/
theorem displayName_counterexample :
    displayNameOf none "A__cB__c" = "AB__c" ∧
    specStripTrailing "A__cB__c" = "A__cB" ∧
    displayNameOf none "A__cB__c" ≠ specStripTrailing "A__cB__c" := by
  refine ⟨by decide, by decide, by decide⟩

/-- C6 (amended) — the row label is the describe label when a snapshot
exists; otherwise the identifier with the *first* occurrence of `"__c"`
removed, which strips the trailing suffix exactly when no earlier occurrence
exists; the identifier itself is passed through unchanged alongside. -/
theorem displayName_amended :
    (∀ (od : ObjectDescribe) (objName : String),
      displayNameOf (some od) objName = od.label) ∧
    (∀ objName : String,
      displayNameOf none objName = jsReplaceFirst objName "__c") ∧
    (∀ base : String,
      listContains ['_', '_', 'c'] (base.toList ++ ['_', '_']) = false →
      displayNameOf none (base ++ "__c") = base) := by
  refine ⟨fun od objName => rfl, fun objName => rfl, ?_⟩
  intro base h
  show jsReplaceFirst (base ++ "__c") "__c" = base
  unfold jsReplaceFirst
  have h1 : (base ++ "__c").toList = base.toList ++ ['_', '_', 'c'] := by
    rw [toList_append]; rfl
  rw [h1]
  show String.mk (stripFirst ['_', '_', 'c'] (base.toList ++ ['_', '_', 'c'])) = base
  rw [stripFirst_trailing base.toList h]
  cases base; rfl

/-- Witness for C6 (amended) at `"Custom__c"`. -/
theorem displayName_amended_witness :
    displayNameOf (some ⟨"取引先", none⟩) "Custom__c" = "取引先" ∧
    displayNameOf none "Custom__c" = "Custom" := by
  constructor
  · exact displayName_amended.1 ⟨"取引先", none⟩ "Custom__c"
  · have := displayName_amended.2.2 "Custom" (by decide)
    simpa using this

/-! ## Manifest Reader (`getCustomObjectsFromPackageXml` and siblings)

`fast-xml-parser` returns a bare value for a uniquely occurring XML element
and an array only for a repeated one; the scripts pass an `isArray` option
that forces `members` — and only `members` — to an array.  The parse result
of `manifest/package.xml` is therefore modelled at the point the scripts
read it: `types` is an array only when the manifest declares two or more
metadata types. -/

/-- Raw `members` content of one `types` element, before the `isArray`
normalization: a single `<members>` child is a bare string. -/
inductive RawMembers
  | one (m : String)
  | many (ms : List String)
deriving DecidableEq, Repr

/-- One `types` element of the manifest, in document order. -/
structure RawType where
  name : String
  members : RawMembers
deriving DecidableEq, Repr

/-- A `types` entry after parsing with the scripts' options: `members` is
always an array, member order preserved. -/
structure ManifestType where
  name : String
  members : List String
deriving DecidableEq, Repr

/-- The `isArray: (name) => name === "members"` normalization. -/
def normalizeMembers : RawMembers → List String
  | .one m => [m]
  | .many ms => ms

def parseType (t : RawType) : ManifestType := ⟨t.name, normalizeMembers t.members⟩

/-- `result.Package.types`: undefined without any `types` element, a bare
object for exactly one, an array for two or more. -/
inductive ParsedTypes
  | absent
  | single (t : ManifestType)
  | multiple (ts : List ManifestType)
deriving Repr

def parsePackageTypes (doc : List RawType) : ParsedTypes :=
  match doc with
  | [] => .absent
  | [t] => .single (parseType t)
  | ts => .multiple (ts.map parseType)

/-- The `TypeError` thrown by `result.Package.types.find(...)` when `types`
is not an array. -/
def findTypeError : JsError := ⟨none, "result.Package.types.find is not a function"⟩

/-- Lines 8-20 (and the near-identical 22-34, 382-401): look up one metadata
type's members; `.find` only exists on an array, so a manifest with zero or
one `types` element makes the call throw. -/
def membersOfType (doc : List RawType) (typeName : String) :
    Except JsError (List String) :=
  match parsePackageTypes doc with
  | .multiple ts =>
    .ok (match ts.find? (fun t => t.name == typeName) with
        | some t => t.members
        | none => [])
  | _ => .error findTypeError

def getCustomObjectsFromPackageXml (doc : List RawType) :
    Except JsError (List String) :=
  membersOfType doc "CustomObject"

def getCustomFieldsFromPackageXml (doc : List RawType) :
    Except JsError (List String) :=
  membersOfType doc "CustomField"

/-- C8 (counterexample to the claim as stated): a well-formed manifest whose
only `types` element is `CustomObject` with two members parses to a bare
object, and the reader throws instead of returning the member list. -/
theorem manifestReader_counterexample :
    getCustomObjectsFromPackageXml
        [⟨"CustomObject", RawMembers.many ["A__c", "B__c"]⟩]
      = .error findTypeError ∧
    getCustomObjectsFromPackageXml
        [⟨"CustomObject", RawMembers.many ["A__c", "B__c"]⟩]
      ≠ .ok ["A__c", "B__c"] := by
  refine ⟨rfl, fun h => ?_⟩
  rw [show getCustomObjectsFromPackageXml
        [⟨"CustomObject", RawMembers.many ["A__c", "B__c"]⟩]
      = Except.error findTypeError from rfl] at h
  exact Except.noConfusion h

/-- C8 (amended) — for manifests declaring at least two metadata types, the
reader returns the requested type's member list: the raw members normalized
to a sequence (a single member entry becomes a one-element sequence, a
member array is passed through in document order), and the empty sequence
when the type is absent. -/
theorem manifestReader_amended :
    (∀ (doc : List RawType) (typeName : String) (rt : RawType),
      2 ≤ doc.length →
      doc.find? (fun t => t.name == typeName) = some rt →
      membersOfType doc typeName = .ok (normalizeMembers rt.members)) ∧
    (∀ (doc : List RawType) (typeName : String),
      2 ≤ doc.length →
      doc.find? (fun t => t.name == typeName) = none →
      membersOfType doc typeName = .ok []) ∧
    (∀ m : String, normalizeMembers (.one m) = [m]) ∧
    (∀ ms : List String, normalizeMembers (.many ms) = ms) := by
  have hparse : ∀ (doc : List RawType), 2 ≤ doc.length →
      parsePackageTypes doc = .multiple (doc.map parseType) := by
    intro doc hlen
    match doc with
    | [] => simp at hlen
    | [t] => simp at hlen
    | a :: b :: rest => rfl
  have hfind : ∀ (doc : List RawType) (typeName : String),
      (doc.map parseType).find? (fun t => t.name == typeName)
        = (doc.find? (fun t => t.name == typeName)).map parseType := by
    intro doc typeName
    rw [List.find?_map]
    rfl
  refine ⟨?_, ?_, fun m => rfl, fun ms => rfl⟩
  · intro doc typeName rt hlen hfound
    unfold membersOfType
    rw [hparse doc hlen]
    simp only [hfind, hfound, Option.map_some']
    rfl
  · intro doc typeName hlen hfound
    unfold membersOfType
    rw [hparse doc hlen]
    simp only [hfind, hfound, Option.map_none']

/-- Witness for C8 (amended) on a two-type manifest with a single-member
list and an absent type. -/
theorem manifestReader_amended_witness :
    membersOfType
        [⟨"CustomObject", RawMembers.one "A__c"⟩,
         ⟨"CustomField", RawMembers.many ["A__c.X__c", "A__c.Y__c"]⟩]
        "CustomObject" = .ok ["A__c"] ∧
    membersOfType
        [⟨"CustomObject", RawMembers.one "A__c"⟩,
         ⟨"CustomField", RawMembers.many ["A__c.X__c", "A__c.Y__c"]⟩]
        "PermissionSet" = .ok [] := by
  constructor
  · exact manifestReader_amended.1 _ "CustomObject"
      ⟨"CustomObject", RawMembers.one "A__c"⟩ (by decide) (by decide)
  · exact manifestReader_amended.2.1 _ "PermissionSet" (by decide) (by decide)

/-! ## Metadata Loader (`getPermissionSetMetadata`, `getProfileMetadata`)

The filesystem and the `sf project retrieve start` call are modelled as
three oracles: the local read before any retrieval, the retrieval run, and
the local read after a successful retrieval (retrieval may have written the
file, so the two reads are distinct oracles).  The loader also returns the
trace of external actions it performed, in order. -/

/-- One external action of the loader. -/
inductive LoaderEvent
  | readAttempt (path : String)
  | retrieveCall (manifestMembers : List String) (typeName : String)
deriving DecidableEq, Repr

/-- The loader's environment. -/
structure LoaderWorld where
  readBefore : String → Except JsError String
  retrieveRun : String → Except JsError Unit
  readAfterRetrieve : String → Except JsError String

def permissionSetPath (name : String) : String :=
  "force-app/main/default/permissionsets/" ++ name ++ ".permissionset-meta.xml"

def profilePath (name : String) : String :=
  "force-app/main/default/profiles/" ++ name ++ ".profile-meta.xml"

/-- Lines 71-109: read the permission-set document; on an `ENOENT` failure,
`retrievePermissionSet` (lines 36-69) writes a temporary manifest whose sole
member is the requested entity under type `PermissionSet` and runs the
retrieve command (rethrowing its failure), then the read is retried once
with no further catch.  The returned string is the raw XML content handed to
the parser. -/
def getPermissionSetMetadata (w : LoaderWorld) (name : String) :
    Except JsError String × List LoaderEvent :=
  match w.readBefore (permissionSetPath name) with
  | .ok content => (.ok content, [.readAttempt (permissionSetPath name)])
  | .error e =>
    if e.code == some "ENOENT" then
      match w.retrieveRun name with
      | .error re =>
        (.error re,
         [.readAttempt (permissionSetPath name),
          .retrieveCall [name] "PermissionSet"])
      | .ok _ =>
        match w.readAfterRetrieve (permissionSetPath name) with
        | .ok content =>
          (.ok content,
           [.readAttempt (permissionSetPath name),
            .retrieveCall [name] "PermissionSet",
            .readAttempt (permissionSetPath name)])
        | .error e2 =>
          (.error e2,
           [.readAttempt (permissionSetPath name),
            .retrieveCall [name] "PermissionSet",
            .readAttempt (permissionSetPath name)])
    else (.error e, [.readAttempt (permissionSetPath name)])

/-- Lines 111-131: read the profile document; the catch block only logs and
rethrows — there is no retrieval and no retry for profiles. -/
def getProfileMetadata (w : LoaderWorld) (name : String) :
    Except JsError String × List LoaderEvent :=
  match w.readBefore (profilePath name) with
  | .ok content => (.ok content, [.readAttempt (profilePath name)])
  | .error e => (.error e, [.readAttempt (profilePath name)])

/-- A world whose every local read fails with `ENOENT`. -/
def missingFileWorld : LoaderWorld where
  readBefore := fun _ => .error ⟨some "ENOENT", "no such file"⟩
  retrieveRun := fun _ => .ok ()
  readAfterRetrieve := fun _ => .ok "<Profile/>"

/-- C3 (counterexample to the claim as stated): for the *profile* kind a
not-found read does not trigger any retrieval or retry — the error
propagates after the single read attempt, although the claim asserts the
fetch-and-retry recovery for both kinds. -/
theorem metadataLoader_counterexample :
    getProfileMetadata missingFileWorld "Admin"
      = (.error ⟨some "ENOENT", "no such file"⟩,
         [.readAttempt (profilePath "Admin")]) ∧
    (getPermissionSetMetadata missingFileWorld "Sales"
      = (.ok "<Profile/>",
         [.readAttempt (permissionSetPath "Sales"),
          .retrieveCall ["Sales"] "PermissionSet",
          .readAttempt (permissionSetPath "Sales")])) := by
  exact ⟨rfl, rfl⟩

/-- C3 (amended) — for the permission-set kind the loader reads locally
first; exactly when that read fails with the not-found code it invokes the
retrieval collaborator with a single-entity manifest naming only that entity
and retries the read exactly once, propagating a retrieval failure or a
second-read failure; any non-not-found error propagates without retrieval.
For the profile kind every read error propagates directly — there is no
recovery. -/
theorem metadataLoader_amended :
    (∀ (w : LoaderWorld) (name : String) (content : String),
      w.readBefore (permissionSetPath name) = .ok content →
      getPermissionSetMetadata w name
        = (.ok content, [.readAttempt (permissionSetPath name)])) ∧
    (∀ (w : LoaderWorld) (name : String) (e : JsError),
      w.readBefore (permissionSetPath name) = .error e →
      e.code = some "ENOENT" →
      getPermissionSetMetadata w name
        = (match w.retrieveRun name with
           | .error re =>
             (.error re,
              [.readAttempt (permissionSetPath name),
               .retrieveCall [name] "PermissionSet"])
           | .ok _ =>
             (w.readAfterRetrieve (permissionSetPath name),
              [.readAttempt (permissionSetPath name),
               .retrieveCall [name] "PermissionSet",
               .readAttempt (permissionSetPath name)]))) ∧
    (∀ (w : LoaderWorld) (name : String) (e : JsError),
      w.readBefore (permissionSetPath name) = .error e →
      e.code ≠ some "ENOENT" →
      getPermissionSetMetadata w name
        = (.error e, [.readAttempt (permissionSetPath name)])) ∧
    (∀ (w : LoaderWorld) (name : String),
      getProfileMetadata w name
        = (w.readBefore (profilePath name),
           [.readAttempt (profilePath name)])) := by
  refine ⟨?_, ?_, ?_, ?_⟩
  · intro w name content h
    unfold getPermissionSetMetadata
    rw [h]
  · intro w name e h hc
    have hb : (e.code == some "ENOENT") = true := by rw [hc]; rfl
    unfold getPermissionSetMetadata
    rw [h]
    simp only [hb, if_true]
    cases hr : w.retrieveRun name with
    | error re => rfl
    | ok u =>
      cases hafter : w.readAfterRetrieve (permissionSetPath name) with
      | ok c => rfl
      | error e2 => rfl
  · intro w name e h hc
    have hb : (e.code == some "ENOENT") = false := by
      rw [beq_eq_false_iff_ne]
      exact hc
    unfold getPermissionSetMetadata
    rw [h]
    simp only [hb, Bool.false_eq_true, if_false]
  · intro w name
    unfold getProfileMetadata
    cases h : w.readBefore (profilePath name) with
    | ok c => rfl
    | error e => rfl

/-- Witness for C3 (amended): a present file, a missing permission set that
gets retrieved, a permission-denied read, and a profile read. -/
theorem metadataLoader_amended_witness :
    (getPermissionSetMetadata
        ⟨fun _ => .ok "<PermissionSet/>", fun _ => .ok (),
         fun _ => .ok "<PermissionSet/>"⟩ "Sales"
      = (.ok "<PermissionSet/>",
         [.readAttempt (permissionSetPath "Sales")])) ∧
    (getPermissionSetMetadata missingFileWorld "Sales"
      = (.ok "<Profile/>",
         [.readAttempt (permissionSetPath "Sales"),
          .retrieveCall ["Sales"] "PermissionSet",
          .readAttempt (permissionSetPath "Sales")])) ∧
    (getPermissionSetMetadata
        ⟨fun _ => .error ⟨some "EACCES", "denied"⟩, fun _ => .ok (),
         fun _ => .ok ""⟩ "Sales"
      = (.error ⟨some "EACCES", "denied"⟩,
         [.readAttempt (permissionSetPath "Sales")])) ∧
    (getProfileMetadata missingFileWorld "Admin"
      = (.error ⟨some "ENOENT", "no such file"⟩,
         [.readAttempt (profilePath "Admin")])) := by
  refine ⟨?_, ?_, ?_, ?_⟩
  · exact metadataLoader_amended.1 _ "Sales" "<PermissionSet/>" rfl
  · exact metadataLoader_amended.2.1 missingFileWorld "Sales"
      ⟨some "ENOENT", "no such file"⟩ rfl rfl
  · exact metadataLoader_amended.2.2.1 _ "Sales"
      ⟨some "EACCES", "denied"⟩ rfl (by decide)
  · exact metadataLoader_amended.2.2.2 missingFileWorld "Admin"

/-! ## Matrix Builder — single-entity rows (C4, C6) -/

/-- One row of the single-entity object permission table: display label,
API name, permission code (line 191). -/
structure ObjRow where
  label : String
  apiName : String
  perm : String
deriving DecidableEq, Repr

/-- The row built for one manifest member (lines 169-191). -/
def objectRowCells (describe : String → Option ObjectDescribe)
    (perms : Option (List ObjectPermissionEntry)) (objName : String) : ObjRow :=
  ⟨displayNameOf (describe objName) objName, objName,
   objectPermissionCode perms objName⟩

/-- Lines 168-192: one row per manifest member, in manifest order; the
permission record is only consulted per member, never iterated. -/
def objectTableRows (describe : String → Option ObjectDescribe)
    (perms : Option (List ObjectPermissionEntry))
    (customObjects : List String) : List ObjRow :=
  customObjects.map (objectRowCells describe perms)

/-! ## Matrix Builder — summary mode (`generateAllSummary`, C4, C9) -/

/-- The summary pass's environment: metadata per entity (the source re-reads
each entity's document once per row; reads are modelled as a pure function,
so the re-reads coincide) and the describe cache. -/
structure SummaryEnv where
  psMeta : String → PermissionSetMeta
  profMeta : String → ProfileMeta
  describe : String → Option ObjectDescribe

/-- Lines 486-496 / 585-595: one header label per permission set, then one
per profile, each `label || name`. -/
def summaryHeaderLabels (env : SummaryEnv) (permissionSets profiles : List String) :
    List String :=
  permissionSets.map (fun ps => labelOr (env.psMeta ps).label ps)
    ++ profiles.map (fun p => labelOr (env.profMeta p).label p)

/-- Lines 513-553: the permission cells of one object row, one per
permission set then one per profile, in the same order as the header loop. -/
def summaryObjectCells (env : SummaryEnv) (permissionSets profiles : List String)
    (objName : String) : List String :=
  permissionSets.map
      (fun ps => objectPermissionCode (env.psMeta ps).objectPermissions objName)
    ++ profiles.map
      (fun p => objectPermissionCode (env.profMeta p).objectPermissions objName)

/-- One summary-table row. -/
structure SummaryRow where
  label : String
  apiName : String
  cells : List String
deriving DecidableEq, Repr

/-- Lines 506-556: one summary row per manifest member, in manifest order. -/
def summaryObjectRows (env : SummaryEnv) (permissionSets profiles : List String)
    (customObjects : List String) : List SummaryRow :=
  customObjects.map (fun o =>
    ⟨displayNameOf (env.describe o) o, o,
     summaryObjectCells env permissionSets profiles o⟩)

/-- C4 — in both single-entity and summary mode, the row identifiers of the
produced matrix are exactly the manifest member list, in manifest order: no
row can come from an object mentioned only in a permission record. -/
theorem matrixRows_from_manifest
    (describe : String → Option ObjectDescribe)
    (perms : Option (List ObjectPermissionEntry))
    (env : SummaryEnv) (permissionSets profiles customObjects : List String) :
    (objectTableRows describe perms customObjects).map ObjRow.apiName
        = customObjects ∧
    (summaryObjectRows env permissionSets profiles customObjects).map
        SummaryRow.apiName = customObjects := by
  constructor
  · simp only [objectTableRows, List.map_map]
    show List.map (fun o => o) customObjects = customObjects
    simp
  · simp only [summaryObjectRows, List.map_map]
    show List.map (fun o => o) customObjects = customObjects
    simp

/-- A participating entity of the summary table: the source appends the
profile loop after the permission-set loop both for headers and for cells. -/
inductive SummaryEntity
  | permissionSet (name : String)
  | profile (name : String)
deriving DecidableEq, Repr

/-- The entity sequence the summary iterates, in iteration order. -/
def summaryEntities (permissionSets profiles : List String) : List SummaryEntity :=
  permissionSets.map SummaryEntity.permissionSet
    ++ profiles.map SummaryEntity.profile

/-- The header an entity's column carries: its declared label, or its
identifier when no label is declared. -/
def entityHeader (env : SummaryEnv) : SummaryEntity → String
  | .permissionSet n => labelOr (env.psMeta n).label n
  | .profile n => labelOr (env.profMeta n).label n

/-- The cell an entity contributes to one object row. -/
def entityObjectCell (env : SummaryEnv) (objName : String) : SummaryEntity → String
  | .permissionSet n => objectPermissionCode (env.psMeta n).objectPermissions objName
  | .profile n => objectPermissionCode (env.profMeta n).objectPermissions objName

/-- C9 — the summary table has exactly one permission column per
participating entity; headers and the cells of every row are maps over the
*same* entity sequence, so the i-th cell of every row is computed from the
entity whose label heads the i-th column. -/
theorem summaryColumns_aligned (env : SummaryEnv)
    (permissionSets profiles : List String) :
    summaryHeaderLabels env permissionSets profiles
        = (summaryEntities permissionSets profiles).map (entityHeader env) ∧
    (∀ objName : String,
      summaryObjectCells env permissionSets profiles objName
        = (summaryEntities permissionSets profiles).map
            (entityObjectCell env objName)) ∧
    (summaryHeaderLabels env permissionSets profiles).length
        = permissionSets.length + profiles.length := by
  refine ⟨?_, ?_, ?_⟩
  · simp only [summaryHeaderLabels, summaryEntities, List.map_append,
      List.map_map]
    rfl
  · intro objName
    simp only [summaryObjectCells, summaryEntities, List.map_append,
      List.map_map]
    rfl
  · simp [summaryHeaderLabels]

/-! ## Image rendering and the report writer (C10) -/

/-- The table-start marker `generateImage` searches for (lines 256-258). -/
def tableMarker : String := "| オブジェクト名 |"

/-- Lines 253-262 plus the canvas pass: `null` when no line contains the
marker; otherwise the rasterization completes and yields a buffer — modelled
by the pipe-rows it draws (`lines.slice(tableStartIndex)` filtered to lines
starting with a pipe). -/
def generateImage (markdownLines : List String) : Option (List String) :=
  match markdownLines.findIdx? (fun line => jsIncludes tableMarker line) with
  | none => none
  | some i => some ((markdownLines.drop i).filter (fun line => jsStartsWith "|" line))

/-- The files `createDesignFolder` writes, in order. -/
inductive OutputFile
  | objectMd (lines : List String)
  | objectPng (rows : List String)
  | fieldMd (lines : List String)
  | fieldPng (rows : List String)
deriving DecidableEq, Repr

/-- Lines 403-450: write the object markdown unconditionally, then the
object image only when `generateImage` produced a buffer, then the same for
the field table.  Directory bookkeeping is side-effect-only and omitted. -/
def createDesignFolder (objectMarkdown fieldMarkdown : List String) :
    List OutputFile :=
  [OutputFile.objectMd objectMarkdown]
    ++ (match generateImage objectMarkdown with
        | some b => [OutputFile.objectPng b]
        | none => [])
    ++ [OutputFile.fieldMd fieldMarkdown]
    ++ (match generateImage fieldMarkdown with
        | some b => [OutputFile.fieldPng b]
        | none => [])

/-- C10 — image rendering yields the no-image result exactly when no line of
the document contains the table header marker, and in that case the writer
still persists the markdown file and only the image file is skipped (the
writer is a total function of both markdown documents — an absent header
never raises). -/
theorem imageSkip_spec :
    (∀ markdownLines : List String,
      generateImage markdownLines = none
        ↔ ∀ l ∈ markdownLines, jsIncludes tableMarker l = false) ∧
    (∀ om fm : List String,
      OutputFile.objectMd om ∈ createDesignFolder om fm ∧
      OutputFile.fieldMd fm ∈ createDesignFolder om fm) ∧
    (∀ om fm : List String, generateImage om = none →
      ∀ b, OutputFile.objectPng b ∉ createDesignFolder om fm) ∧
    (∀ om fm : List String, generateImage fm = none →
      ∀ b, OutputFile.fieldPng b ∉ createDesignFolder om fm) := by
  have key : ∀ markdownLines : List String,
      generateImage markdownLines = none
        ↔ markdownLines.findIdx? (fun line => jsIncludes tableMarker line)
            = none := by
    intro markdownLines
    unfold generateImage
    cases h : markdownLines.findIdx? (fun line => jsIncludes tableMarker line) <;>
      simp
  refine ⟨?_, ?_, ?_, ?_⟩
  · intro markdownLines
    rw [key, List.findIdx?_eq_none_iff]
  · intro om fm
    unfold createDesignFolder
    constructor
    · simp
    · cases h : generateImage om <;> simp
  · intro om fm h b
    unfold createDesignFolder
    rw [h]
    cases hf : generateImage fm <;> simp
  · intro om fm h b
    unfold createDesignFolder
    rw [h]
    cases ho : generateImage om <;> simp

/-- Witness for C10 on a concrete marker-free document. -/
theorem imageSkip_spec_witness :
    generateImage ["# title", "no table here"] = none ∧
    OutputFile.objectMd ["# title", "no table here"]
      ∈ createDesignFolder ["# title", "no table here"] ["x"] ∧
    OutputFile.objectPng []
      ∉ createDesignFolder ["# title", "no table here"] ["x"] := by
  have hnone : generateImage ["# title", "no table here"] = none := by
    rw [imageSkip_spec.1]
    decide
  refine ⟨hnone, ?_, ?_⟩
  · exact (imageSkip_spec.2.1 ["# title", "no table here"] ["x"]).1
  · exact imageSkip_spec.2.2.1 ["# title", "no table here"] ["x"] hnone []

/-! ## Report Renderer — the single-entity object table as markdown lines
(`generateObjectPermissionsTable`, lines 146-196) -/

/-- The `" c1 | c2 | ... |"` tail of a markdown row: one `" cell |"` block
per cell. -/
def cellsSuffix : List String → String
  | [] => ""
  | c :: rest => " " ++ c ++ " |" ++ cellsSuffix rest

/-- A markdown table row `"| c1 | c2 | ... | cn |"`. -/
def rowOfCells (cells : List String) : String := "|" ++ cellsSuffix cells

/-- Line 191's template `| ${displayName} | ${objName} | ${permissions} |`. -/
def objectRowLine (describe : String → Option ObjectDescribe)
    (perms : Option (List ObjectPermissionEntry)) (objName : String) : String :=
  rowOfCells [displayNameOf (describe objName) objName, objName,
              objectPermissionCode perms objName]

/-- `rowOfCells` at three cells is exactly the source's template string. -/
theorem rowOfCells_three (a b c : String) :
    rowOfCells [a, b, c] = "| " ++ a ++ " | " ++ b ++ " | " ++ c ++ " |" := by
  apply String.ext
  show ((("|" : String) ++ (" " ++ a ++ " |" ++ (" " ++ b ++ " |" ++
      (" " ++ c ++ " |" ++ "")))).toList : List Char) = _
  simp only [toList_append]
  simp [List.append_assoc]

def objectHeaderLine : String := "| オブジェクト名 | オブジェクトAPI名 | 権限 |"

def objectSepLine : String := "|:--|:--|:--|"

/-- The fixed lines of the template of lines 151-166, before the table
header; the profile-label line carries `metadata.Profile.label || profileName`. -/
def objectTablePreamble (profileLabel : String) : List String :=
  ["# オブジェクト権限設計書", "",
   "## プロファイル: " ++ profileLabel, "",
   "### オブジェクト権限の説明",
   "- C: レコードの作成",
   "- R: レコードの参照",
   "- U: レコードの編集",
   "- D: レコードの削除",
   "- Va: すべて参照",
   "- Ua: すべて変更",
   "- Fa: すべての項目表示", "",
   "### オブジェクト権限一覧(table data)"]

/-- Lines 146-196 as a line list: the fixed preamble and table header, then
one row per manifest member; `markdownContent += "\n" + objectRows.join("\n")`
appends one empty line when there are no rows. -/
def objectTableDocLines (profileName : String)
    (describe : String → Option ObjectDescribe) (meta : ProfileMeta)
    (customObjects : List String) : List String :=
  objectTablePreamble (labelOr meta.label profileName)
    ++ [objectHeaderLine, objectSepLine]
    ++ (match customObjects.map (objectRowLine describe meta.objectPermissions) with
        | [] => [""]
        | rs => rs)

/-- The full markdown document of `generateObjectPermissionsTable`. -/
def generateObjectPermissionsTable (profileName : String)
    (describe : String → Option ObjectDescribe) (meta : ProfileMeta)
    (customObjects : List String) : String :=
  String.intercalate "\n" (objectTableDocLines profileName describe meta customObjects)

/-! ## Table re-parsing (`extract-permissions.js`, lines 61-98)

The table-locating regex
`\|(.*)\|\n\|:--+(?:\|:--+)+\|\n((?:\|.*\|\n?)+)` is modelled on the
document's line list.  `.` does not match a newline, so each regex line
chunk lies within one document line; the scan finds the earliest position
where a header-shaped line is followed by a full separator line and at least
one data row.  (A match can in principle start mid-line at an embedded pipe;
the round-trip theorem therefore assumes the pre-table lines are pipe-free,
which makes the line model exact.) -/

/-- A line on which `\|(.*)\|` can match up to the line's end: at least two
pipes, the last one the final character (the `\n` of the regex is the line
boundary). -/
def headerLineCandidate (s : String) : Bool :=
  decide (2 ≤ s.toList.count '|') && (s.toList.getLast? == some '|')

/-- One `:--+` segment between pipes of the separator row. -/
def isColonSeg (cs : List Char) : Bool :=
  match cs with
  | ':' :: ds => decide (2 ≤ ds.length) && ds.all (fun c => c = '-')
  | _ => false

/-- A line that the separator part `\|:--+(?:\|:--+)+\|` matches in full:
pipe-delimited with at least two `:--+` segments and nothing else. -/
def sepLineMatch (s : String) : Bool :=
  let parts := splitChar '|' s.toList
  (parts.head? == some []) && (parts.getLast? == some []) &&
    decide (4 ≤ parts.length) && ((parts.drop 1).dropLast.all isColonSeg)

/-- A line the data-row part `\|.*\|\n?` consumes in full: first and last
characters are pipes of a line of length at least two. -/
def dataRowLineMatch (s : String) : Bool :=
  (s.toList.head? == some '|') && (s.toList.getLast? == some '|') &&
    decide (2 ≤ s.toList.length)

/-- The earliest regex match over the line list: the header line and the
maximal run of data-row lines after the separator. -/
def findTable : List String → Option (String × List String)
  | [] => none
  | [_] => none
  | h :: sep :: rest =>
    if headerLineCandidate h && sepLineMatch sep &&
        (match rest.head? with
         | some r => dataRowLineMatch r
         | none => false) then
      some (h, rest.takeWhile dataRowLineMatch)
    else findTable (sep :: rest)

/-- The characters of `tableMatch[1]`: strictly between the first and the
last pipe of the header line. -/
def betweenPipes (cs : List Char) : List Char :=
  ((((cs.dropWhile (fun c => c ≠ '|')).drop 1).reverse.dropWhile
      (fun c => c ≠ '|')).drop 1).reverse

/-- Lines 73-77: `headerRow.split("|").map(trim).filter(length > 0)`. -/
def headerCellsOf (h : String) : List String :=
  (((splitChar '|' (trimChars (betweenPipes h.toList))).map trimChars).filter
      (fun cs => !cs.isEmpty)).map (fun cs => ⟨cs⟩)

/-- Lines 93-96: `row.split("|").map(trim).slice(1, -1)`. -/
def rowCells (row : String) : List String :=
  ((((splitChar '|' row.toList).map trimChars).drop 1).dropLast).map
    (fun cs => (⟨cs⟩ : String))

/-- Lines 61-98 on a located table: the recovered header cells and the cell
rows, after the map-trim / keep-pipe-rows / drop-separator-lookalikes
pipeline of lines 81-96. -/
def extractTableData (docLines : List String) :
    Option (List String × List (List String)) :=
  match findTable docLines with
  | none => none
  | some (h, tableRows) =>
    let rows := ((tableRows.map jsTrim).filter
        (fun r => jsStartsWith "|" r)).filter
        (fun r => !(jsIncludes "|:--" r))
    some (headerCellsOf h, rows.map rowCells)

/-- A cell value that can survive the markdown round trip unchanged: free of
pipes and newlines and already trimmed. -/
def cleanCell (s : String) : Prop :=
  '|' ∉ s.toList ∧ '\n' ∉ s.toList ∧ trimChars s.toList = s.toList

/-! ### Lemmas about the JS string primitives -/

theorem mk_toList (s : String) : (⟨s.toList⟩ : String) = s := by cases s; rfl

theorem splitChar_cons_sep (sep : Char) (l : List Char) :
    splitChar sep (sep :: l) = [] :: splitChar sep l := by
  simp [splitChar]

theorem splitChar_append_noSep (sep : Char) (xs ys : List Char)
    (h : sep ∉ xs) :
    splitChar sep (xs ++ sep :: ys) = xs :: splitChar sep ys := by
  induction xs with
  | nil => simp [splitChar_cons_sep]
  | cons x xs ih =>
    have hx : ¬ x = sep := by
      intro he
      exact h (by rw [he]; exact List.mem_cons_self sep xs)
    have hxs : sep ∉ xs := fun hm => h (List.mem_cons_of_mem x hm)
    rw [List.cons_append]
    simp only [splitChar, if_neg hx, ih hxs]

theorem dropWhile_eq_self_of_length (p : Char → Bool) :
    ∀ l : List Char, (l.dropWhile p).length = l.length → l.dropWhile p = l
  | [], _ => rfl
  | c :: cs, h => by
    by_cases hp : p c
    · exfalso
      rw [List.dropWhile_cons, if_pos hp] at h
      have hle := (List.dropWhile_suffix (l := cs) p).sublist.length_le
      simp only [List.length_cons] at h
      omega
    · rw [List.dropWhile_cons, if_neg hp]

theorem trimChars_length_le_drop (cs : List Char) :
    (trimChars cs).length ≤ (cs.dropWhile isWs).length := by
  unfold trimChars
  rw [List.length_reverse]
  calc ((cs.dropWhile isWs).reverse.dropWhile isWs).length
      ≤ (cs.dropWhile isWs).reverse.length :=
        (List.dropWhile_suffix isWs).sublist.length_le
    _ = (cs.dropWhile isWs).length := List.length_reverse _

theorem trim_fixed_drop {cs : List Char} (h : trimChars cs = cs) :
    cs.dropWhile isWs = cs := by
  have h1 := (List.dropWhile_suffix (l := cs) isWs).sublist.length_le
  have h2 := trimChars_length_le_drop cs
  rw [h] at h2
  exact dropWhile_eq_self_of_length isWs cs (by omega)

theorem trim_fixed_rev_drop {cs : List Char} (h : trimChars cs = cs) :
    cs.reverse.dropWhile isWs = cs.reverse := by
  have hd := trim_fixed_drop h
  unfold trimChars at h
  rw [hd] at h
  have h2 := congrArg List.reverse h
  simpa using h2

theorem head_not_ws_of_drop_eq {x : Char} {xs : List Char}
    (h : (x :: xs).dropWhile isWs = x :: xs) : isWs x = false := by
  by_contra hx
  rw [Bool.not_eq_false] at hx
  rw [List.dropWhile_cons, if_pos hx] at h
  have hle := (List.dropWhile_suffix (l := xs) isWs).sublist.length_le
  have hlen := congrArg List.length h
  simp only [List.length_cons] at hlen
  omega

theorem dropWhile_eq_self_of_head {p : Char → Bool} {l : List Char} {a : Char}
    (ha : l.head? = some a) (hpa : p a = false) : l.dropWhile p = l := by
  cases l with
  | nil => rfl
  | cons x xs =>
    simp only [List.head?_cons, Option.some.injEq] at ha
    subst ha
    rw [List.dropWhile_cons, if_neg (by simp [hpa])]

theorem trimChars_eq_self_of_ends {l : List Char} {a b : Char}
    (ha : l.head? = some a) (hwa : isWs a = false)
    (hb : l.getLast? = some b) (hwb : isWs b = false) :
    trimChars l = l := by
  unfold trimChars
  rw [dropWhile_eq_self_of_head ha hwa]
  rw [dropWhile_eq_self_of_head (by rw [List.head?_reverse]; exact hb) hwb]
  exact l.reverse_reverse

theorem trimChars_pad {c : List Char} (h : trimChars c = c) :
    trimChars (' ' :: (c ++ [' '])) = c := by
  cases c with
  | nil => decide
  | cons x xs =>
    have hdrop : (x :: xs).dropWhile isWs = x :: xs := trim_fixed_drop h
    have hx : isWs x = false := head_not_ws_of_drop_eq hdrop
    have h1 : (' ' :: ((x :: xs) ++ [' '])).dropWhile isWs = (x :: xs) ++ [' '] := by
      rw [List.dropWhile_cons, if_pos (show isWs ' ' = true from rfl)]
      rw [List.cons_append, List.dropWhile_cons, if_neg (by simp [hx])]
    unfold trimChars
    rw [h1, List.reverse_append]
    show ((' ' :: (x :: xs).reverse).dropWhile isWs).reverse = x :: xs
    rw [List.dropWhile_cons, if_pos (show isWs ' ' = true from rfl)]
    rw [trim_fixed_rev_drop h]
    exact (x :: xs).reverse_reverse

/-! ### Character-level structure of rendered rows -/

/-- The characters of `cellsSuffix`: one `" cell |"` block per cell. -/
def segChars : List (List Char) → List Char
  | [] => []
  | c :: rest => ' ' :: (c ++ (' ' :: '|' :: segChars rest))

theorem cellsSuffix_toList (cells : List String) :
    (cellsSuffix cells).toList = segChars (cells.map String.toList) := by
  induction cells with
  | nil => rfl
  | cons c rest ih =>
    show (" " ++ c ++ " |" ++ cellsSuffix rest).toList = _
    simp only [toList_append, ih]
    show [' '] ++ c.toList ++ [' ', '|'] ++ segChars (rest.map String.toList)
        = ' ' :: (c.toList ++ (' ' :: '|' :: segChars (rest.map String.toList)))
    simp [List.append_assoc]

theorem rowOfCells_toList (cells : List String) :
    (rowOfCells cells).toList = '|' :: segChars (cells.map String.toList) := by
  show (("|" : String) ++ cellsSuffix cells).toList = _
  rw [toList_append, cellsSuffix_toList]
  rfl

theorem segChars_concat (c : List Char) (rest : List (List Char)) :
    ∃ pre, segChars (c :: rest) = pre ++ ['|'] := by
  induction rest generalizing c with
  | nil => exact ⟨' ' :: (c ++ [' ']), by simp [segChars, List.append_assoc]⟩
  | cons d rest2 ih =>
    obtain ⟨pre2, hpre2⟩ := ih d
    refine ⟨' ' :: (c ++ (' ' :: '|' :: pre2)), ?_⟩
    show ' ' :: (c ++ (' ' :: '|' :: segChars (d :: rest2))) = _
    rw [hpre2]
    simp [List.append_assoc]

theorem rowOfCells_getLast (cells : List String) (h : cells ≠ []) :
    (rowOfCells cells).toList.getLast? = some '|' := by
  obtain ⟨c, rest, rfl⟩ := List.exists_cons_of_ne_nil h
  rw [rowOfCells_toList]
  obtain ⟨pre, hpre⟩ := segChars_concat c.toList (rest.map String.toList)
  show (('|' :: segChars (c.toList :: rest.map String.toList)).getLast? = some '|')
  rw [hpre]
  rw [show '|' :: (pre ++ ['|']) = ('|' :: pre) ++ ['|'] by simp]
  exact List.getLast?_concat _

theorem dataRowLineMatch_rowOfCells (cells : List String) (h : cells ≠ []) :
    dataRowLineMatch (rowOfCells cells) = true := by
  obtain ⟨c, rest, rfl⟩ := List.exists_cons_of_ne_nil h
  have hlast := rowOfCells_getLast (c :: rest) (by simp)
  obtain ⟨pre, hpre⟩ := segChars_concat c.toList (rest.map String.toList)
  unfold dataRowLineMatch
  rw [hlast, rowOfCells_toList]
  simp only [List.map_cons, hpre]
  simp [List.length_append]

theorem splitChar_segChars (cells : List (List Char))
    (h : ∀ c ∈ cells, '|' ∉ c) :
    splitChar '|' (segChars cells)
      = cells.map (fun c => ' ' :: (c ++ [' '])) ++ [[]] := by
  induction cells with
  | nil => rfl
  | cons c rest ih =>
    have hc : '|' ∉ ' ' :: (c ++ [' ']) := by
      intro hm
      rcases List.mem_cons.mp hm with h1 | h1
      · exact absurd h1 (by decide)
      · rcases List.mem_append.mp h1 with h2 | h2
        · exact h c (List.mem_cons_self c rest) h2
        · exact absurd (List.mem_singleton.mp h2) (by decide)
    have hsplit : ' ' :: (c ++ (' ' :: '|' :: segChars rest))
        = (' ' :: (c ++ [' '])) ++ '|' :: segChars rest := by
      simp [List.append_assoc]
    show splitChar '|' (' ' :: (c ++ (' ' :: '|' :: segChars rest))) = _
    rw [hsplit, splitChar_append_noSep '|' _ _ hc,
      ih (fun d hd => h d (List.mem_cons_of_mem c hd))]
    rfl

theorem trimChars_nil : trimChars [] = [] := rfl

theorem rowCells_rowOfCells (cells : List String)
    (hclean : ∀ c ∈ cells, '|' ∉ c.toList ∧ trimChars c.toList = c.toList) :
    rowCells (rowOfCells cells) = cells := by
  unfold rowCells
  rw [rowOfCells_toList, splitChar_cons_sep,
    splitChar_segChars (cells.map String.toList)
      (by intro d hd
          obtain ⟨c, hc, rfl⟩ := List.mem_map.mp hd
          exact (hclean c hc).1)]
  simp only [List.map_cons, List.map_append, List.map_nil, trimChars_nil,
    List.drop_succ_cons, List.drop_zero, List.dropLast_concat, List.map_map]
  rw [List.map_congr_left (g := fun c => c)
    (fun c hc => by
      show (⟨trimChars (' ' :: (c.toList ++ [' ']))⟩ : String) = c
      rw [trimChars_pad (hclean c hc).2]
      exact mk_toList c)]
  simp

theorem jsTrim_rowOfCells (cells : List String) (h : cells ≠ []) :
    jsTrim (rowOfCells cells) = rowOfCells cells := by
  unfold jsTrim
  rw [trimChars_eq_self_of_ends
    (a := '|') (b := '|')
    (by rw [rowOfCells_toList]; rfl)
    rfl (rowOfCells_getLast cells h) rfl]
  exact mk_toList _

theorem jsStartsWith_rowOfCells (cells : List String) :
    jsStartsWith "|" (rowOfCells cells) = true := by
  unfold jsStartsWith
  rw [rowOfCells_toList]
  show ['|'].isPrefixOf ('|' :: segChars (cells.map String.toList)) = true
  simp [List.isPrefixOf]

/-! ### The separator-lookalike filter keeps rendered rows -/

/-- No pipe immediately followed by a colon anywhere in the list. -/
def noPipeColon : List Char → Bool
  | [] => true
  | [_] => true
  | a :: b :: rest => !(a == '|' && b == ':') && noPipeColon (b :: rest)

theorem noPipeColon_decomp (pre suf : List Char) :
    noPipeColon (pre ++ '|' :: ':' :: suf) = false := by
  induction pre with
  | nil => simp [noPipeColon]
  | cons x pre ih =>
    cases pre with
    | nil =>
      show noPipeColon (x :: '|' :: ':' :: suf) = false
      have h0 : noPipeColon ('|' :: ':' :: suf) = false := by
        simpa using ih
      simp [noPipeColon, h0]
    | cons y pre2 =>
      show noPipeColon (x :: y :: (pre2 ++ '|' :: ':' :: suf)) = false
      have h0 : noPipeColon (y :: (pre2 ++ '|' :: ':' :: suf)) = false := by
        simpa using ih
      simp [noPipeColon, h0]

theorem noPipeColon_append_left (a l : List Char) (ha : '|' ∉ a)
    (hl : noPipeColon l = true) : noPipeColon (a ++ l) = true := by
  induction a with
  | nil => simpa
  | cons x a ih =>
    have hx : (x == '|') = false := by
      rw [beq_eq_false_iff_ne]
      intro he
      exact ha (by rw [he]; exact List.mem_cons_self '|' a)
    have ha' : '|' ∉ a := fun hm => ha (List.mem_cons_of_mem x hm)
    have hrec : noPipeColon (a ++ l) = true := ih ha'
    show noPipeColon (x :: (a ++ l)) = true
    cases hal : a ++ l with
    | nil => rfl
    | cons y rest =>
      rw [hal] at hrec
      show noPipeColon (x :: y :: rest) = true
      simp [noPipeColon, hx, hrec]

theorem noPipeColon_row (cells : List (List Char)) (h : ∀ c ∈ cells, '|' ∉ c) :
    noPipeColon ('|' :: segChars cells) = true := by
  induction cells with
  | nil => rfl
  | cons c rest ih =>
    have hsplit : (' ' :: (c ++ [' '])) ++ ('|' :: segChars rest)
        = ' ' :: (c ++ (' ' :: '|' :: segChars rest)) := by
      simp [List.append_assoc]
    have hnot : '|' ∉ ' ' :: (c ++ [' ']) := by
      intro hm
      rcases List.mem_cons.mp hm with h1 | h1
      · exact absurd h1 (by decide)
      · rcases List.mem_append.mp h1 with h2 | h2
        · exact h c (List.mem_cons_self c rest) h2
        · exact absurd (List.mem_singleton.mp h2) (by decide)
    have h2 : noPipeColon (' ' :: (c ++ (' ' :: '|' :: segChars rest))) = true := by
      rw [← hsplit]
      exact noPipeColon_append_left _ _ hnot
        (ih (fun d hd => h d (List.mem_cons_of_mem c hd)))
    show noPipeColon ('|' :: ' ' :: (c ++ (' ' :: '|' :: segChars rest))) = true
    simp [noPipeColon, h2]

theorem listContains_decomp {pat hay : List Char}
    (h : listContains pat hay = true) : ∃ pre suf, hay = pre ++ pat ++ suf := by
  induction hay with
  | nil =>
    simp only [listContains, List.isEmpty_iff] at h
    exact ⟨[], [], by simp [h]⟩
  | cons c cs ih =>
    simp only [listContains, Bool.or_eq_true] at h
    rcases h with h | h
    · rw [List.isPrefixOf_iff_prefix] at h
      obtain ⟨t, ht⟩ := h
      exact ⟨[], t, by simp [← ht]⟩
    · obtain ⟨pre, suf, hps⟩ := ih h
      exact ⟨c :: pre, suf, by simp [hps]⟩

theorem jsIncludes_sep_rowOfCells (cells : List String)
    (h : ∀ c ∈ cells, '|' ∉ c.toList) :
    jsIncludes "|:--" (rowOfCells cells) = false := by
  by_contra hcon
  rw [Bool.not_eq_false] at hcon
  obtain ⟨pre, suf, hps⟩ := listContains_decomp hcon
  have hnp : noPipeColon ((rowOfCells cells).toList) = true := by
    rw [rowOfCells_toList]
    apply noPipeColon_row
    intro d hd
    obtain ⟨c, hc, rfl⟩ := List.mem_map.mp hd
    exact h c hc
  rw [hps] at hnp
  have heq : pre ++ "|:--".toList ++ suf
      = pre ++ ('|' :: ':' :: ('-' :: '-' :: suf)) := by
    simp [List.append_assoc]
  rw [heq, noPipeColon_decomp] at hnp
  exact Bool.false_ne_true hnp

/-! ### Locating the table in the rendered document -/

theorem findTable_skip (h : String) (ls : List String)
    (hh : headerLineCandidate h = false) :
    findTable (h :: ls) = findTable ls := by
  cases ls with
  | nil => rfl
  | cons sep rest => simp [findTable, hh]

theorem findTable_append_skip (pres ls : List String)
    (hp : ∀ p ∈ pres, headerLineCandidate p = false) :
    findTable (pres ++ ls) = findTable ls := by
  induction pres with
  | nil => rfl
  | cons p pres ih =>
    rw [List.cons_append, findTable_skip _ _ (hp p (List.mem_cons_self p pres))]
    exact ih (fun q hq => hp q (List.mem_cons_of_mem p hq))

theorem headerLineCandidate_eq_false_of_no_pipe (s : String)
    (h : '|' ∉ s.toList) : headerLineCandidate s = false := by
  have hc : s.toList.count '|' = 0 := List.count_eq_zero.mpr h
  unfold headerLineCandidate
  rw [hc]
  simp

theorem preamble_no_header (label : String) (hl : '|' ∉ label.toList) :
    ∀ p ∈ objectTablePreamble label, headerLineCandidate p = false := by
  intro p hp
  unfold objectTablePreamble at hp
  fin_cases hp
  case _ => decide
  case _ => decide
  case _ =>
    apply headerLineCandidate_eq_false_of_no_pipe
    rw [toList_append]
    intro hm
    rcases List.mem_append.mp hm with h1 | h1
    · exact absurd h1 (by decide)
    · exact hl h1
  all_goals decide

theorem findTable_at_table (rows : List String)
    (hrow : ∀ r ∈ rows, dataRowLineMatch r = true) (hne : rows ≠ []) :
    findTable (objectHeaderLine :: objectSepLine :: rows)
      = some (objectHeaderLine, rows) := by
  obtain ⟨r, rest, rfl⟩ := List.exists_cons_of_ne_nil hne
  show (if headerLineCandidate objectHeaderLine && sepLineMatch objectSepLine &&
      (match (r :: rest).head? with
       | some r => dataRowLineMatch r
       | none => false) then
      some (objectHeaderLine, (r :: rest).takeWhile dataRowLineMatch)
    else findTable (objectSepLine :: r :: rest)) = some (objectHeaderLine, r :: rest)
  rw [List.takeWhile_eq_self_iff.mpr hrow]
  have h1 : headerLineCandidate objectHeaderLine = true := by decide
  have h2 : sepLineMatch objectSepLine = true := by decide
  have h3 : dataRowLineMatch r = true := hrow r (List.mem_cons_self r rest)
  simp [h1, h2, h3]

/-! ### The round trip (C5) -/

/-- The three cell values of one rendered row. -/
def objectCellStrings (describe : String → Option ObjectDescribe)
    (perms : Option (List ObjectPermissionEntry)) (objName : String) :
    List String :=
  [displayNameOf (describe objName) objName, objName,
   objectPermissionCode perms objName]

/-- C5 (amended) — rendering the single-entity object matrix to markdown and
re-parsing it with the extract script's pipeline recovers exactly the
original cell values in the original row and column order, provided the
matrix is nonempty and every cell value (and the profile label) is free of
pipes and newlines and carries no surrounding whitespace. -/
theorem markdownRoundTrip_amended
    (profileName : String) (describe : String → Option ObjectDescribe)
    (meta : ProfileMeta) (customObjects : List String)
    (hne : customObjects ≠ [])
    (hlabel : '|' ∉ (labelOr meta.label profileName).toList)
    (hcells : ∀ obj ∈ customObjects,
      cleanCell obj ∧ cleanCell (displayNameOf (describe obj) obj) ∧
      cleanCell (objectPermissionCode meta.objectPermissions obj)) :
    extractTableData (objectTableDocLines profileName describe meta customObjects)
      = some (["オブジェクト名", "オブジェクトAPI名", "権限"],
          (objectTableRows describe meta.objectPermissions customObjects).map
            (fun r => [r.label, r.apiName, r.perm])) := by
  obtain ⟨o, os, rfl⟩ := List.exists_cons_of_ne_nil hne
  have hcellsOf : ∀ obj ∈ o :: os, ∀ c ∈ objectCellStrings describe
      meta.objectPermissions obj, '|' ∉ c.toList ∧ trimChars c.toList = c.toList := by
    intro obj hobj c hc
    obtain ⟨h1, h2, h3⟩ := hcells obj hobj
    rcases List.mem_cons.mp hc with rfl | hc2
    · exact ⟨h2.1, h2.2.2⟩
    rcases List.mem_cons.mp hc2 with rfl | hc3
    · exact ⟨h1.1, h1.2.2⟩
    rcases List.mem_cons.mp hc3 with rfl | hc4
    · exact ⟨h3.1, h3.2.2⟩
    · cases hc4
  have hrowform : ∀ r ∈ (o :: os).map (objectRowLine describe meta.objectPermissions),
      ∃ obj ∈ o :: os,
        r = rowOfCells (objectCellStrings describe meta.objectPermissions obj) := by
    intro r hr
    obtain ⟨obj, hobj, rfl⟩ := List.mem_map.mp hr
    exact ⟨obj, hobj, rfl⟩
  have hrowmatch : ∀ r ∈ (o :: os).map (objectRowLine describe meta.objectPermissions),
      dataRowLineMatch r = true := by
    intro r hr
    obtain ⟨obj, _, rfl⟩ := hrowform r hr
    exact dataRowLineMatch_rowOfCells _ (by simp [objectCellStrings])
  have hdoc : objectTableDocLines profileName describe meta (o :: os)
      = objectTablePreamble (labelOr meta.label profileName)
          ++ (objectHeaderLine :: objectSepLine ::
              (o :: os).map (objectRowLine describe meta.objectPermissions)) := by
    show objectTablePreamble (labelOr meta.label profileName)
          ++ [objectHeaderLine, objectSepLine]
          ++ (objectRowLine describe meta.objectPermissions o
              :: os.map (objectRowLine describe meta.objectPermissions)) = _
    simp [List.append_assoc]
  unfold extractTableData
  rw [hdoc, findTable_append_skip _ _ (preamble_no_header _ hlabel),
    findTable_at_table _ hrowmatch (by simp)]
  have htrim : ((o :: os).map (objectRowLine describe meta.objectPermissions)).map
      jsTrim = (o :: os).map (objectRowLine describe meta.objectPermissions) := by
    rw [List.map_congr_left (g := fun r => r)
      (fun r hr => by
        obtain ⟨obj, _, rfl⟩ := hrowform r hr
        exact jsTrim_rowOfCells _ (by simp [objectCellStrings]))]
    simp
  have hstarts : ((o :: os).map (objectRowLine describe meta.objectPermissions)).filter
      (fun r => jsStartsWith "|" r)
      = (o :: os).map (objectRowLine describe meta.objectPermissions) :=
    List.filter_eq_self.mpr (fun r hr => by
      obtain ⟨obj, _, rfl⟩ := hrowform r hr
      exact jsStartsWith_rowOfCells _)
  have hnosep : ((o :: os).map (objectRowLine describe meta.objectPermissions)).filter
      (fun r => !(jsIncludes "|:--" r))
      = (o :: os).map (objectRowLine describe meta.objectPermissions) :=
    List.filter_eq_self.mpr (fun r hr => by
      obtain ⟨obj, hobj, rfl⟩ := hrowform r hr
      have := jsIncludes_sep_rowOfCells _
        (fun c hc => (hcellsOf obj hobj c hc).1)
      simp [this])
  simp only [htrim, hstarts, hnosep]
  have hcellsEq : ((o :: os).map (objectRowLine describe meta.objectPermissions)).map
      rowCells = (o :: os).map (objectCellStrings describe meta.objectPermissions) := by
    rw [List.map_map]
    exact List.map_congr_left (fun obj hobj => by
      show rowCells (objectRowLine describe meta.objectPermissions obj) = _
      exact rowCells_rowOfCells _ (hcellsOf obj hobj))
  rw [hcellsEq]
  have hheader : headerCellsOf objectHeaderLine
      = ["オブジェクト名", "オブジェクトAPI名", "権限"] := by decide
  rw [hheader]
  unfold objectTableRows
  rw [List.map_map]
  rfl

/-- A describe cache whose label for `"X"` contains a pipe. -/
def pipeLabelDescribe : String → Option ObjectDescribe :=
  fun o => if o = "X" then some ⟨"A|B", none⟩ else none

/-- C5 (counterexample to the claim as stated): a matrix whose display label
is `"A|B"` renders to a row that re-parses into four cells
`["A", "B", "X", "-"]`, not the original three — render-then-parse is not
the identity on arbitrary cell contents. -/
theorem markdownRoundTrip_counterexample :
    extractTableData
        (objectTableDocLines "P" pipeLabelDescribe ⟨none, none, none⟩ ["X"])
      = some (["オブジェクト名", "オブジェクトAPI名", "権限"],
              [["A", "B", "X", "-"]]) ∧
    (objectTableRows pipeLabelDescribe none ["X"]).map
        (fun r => [r.label, r.apiName, r.perm]) = [["A|B", "X", "-"]] ∧
    ([["A", "B", "X", "-"]] : List (List String)) ≠ [["A|B", "X", "-"]] := by
  refine ⟨by decide, by decide, by decide⟩

/-- Witness for C5 (amended) on a one-object matrix with clean cells. -/
theorem markdownRoundTrip_amended_witness :
    extractTableData
        (objectTableDocLines "P" (fun _ => none) ⟨none, none, none⟩ ["Obj__c"])
      = some (["オブジェクト名", "オブジェクトAPI名", "権限"],
              [["Obj", "Obj__c", "-"]]) := by
  have h := markdownRoundTrip_amended "P" (fun _ => none) ⟨none, none, none⟩
    ["Obj__c"] (by decide) (by decide)
    (by intro obj hobj
        rcases List.mem_singleton.mp hobj with rfl
        refine ⟨⟨by decide, by decide, by decide⟩,
          ⟨by decide, by decide, by decide⟩, by decide, by decide, by decide⟩)
  rw [h]
  rfl

end GenDesign
